import Mathlib

/-!
# music-catalog: the catalog accumulator and the report emitter of `cmd/root.go`

A shallow embedding of `visit`, `doCatalog` and the emission loop of `Execute`.

* Go maps with string keys are association lists with at most one binding per key.
  The order of the list is the order in which `range` happens to iterate, so a
  statement proved for every list is proved for every iteration order.
* The process-wide `catalog` variable is threaded through as explicit state,
  together with the log of the file operations the program performed.
* Standard output is a stream of characters; its lines are what lies between line feeds.
* The file system and the tag library are an environment: every visited entry
  carries what `os.Open` and `tag.ReadFrom` answer for it.
-/

namespace MusicCatalog

/-! ## Go maps keyed by strings -/

/-- A Go `map[string]V`: one binding per key, in iteration order. -/
abbrev GoMap (V : Type) := List (String × V)

/-- The lookup `v, ok := m[key]`; `none` stands for `ok == false`. -/
def mapGet {V : Type} : GoMap V → String → Option V
  | [], _ => none
  | (k, v) :: m, key => if k = key then some v else mapGet m key

/-- The assignment `m[key] = val`: rebinds the key when present, adds it otherwise. -/
def mapSet {V : Type} : GoMap V → String → V → GoMap V
  | [], key, val => [(key, val)]
  | (k, v) :: m, key, val =>
    if k = key then (key, val) :: m else (k, v) :: mapSet m key val

/-- The keys of a map, in iteration order. -/
def mapKeys {V : Type} (m : GoMap V) : List String := m.map Prod.fst

/-! ## Data model (`root.go` lines 53-56) -/

/-- The type `tag.FileType`, a Go string type. -/
abbrev FileType := String

/-- The type `fileTypes`: `map[tag.FileType]interface{}`; only `nil` is ever stored. -/
abbrev fileTypes := GoMap Unit

/-- The type `artists`: `map[string]fileTypes`. -/
abbrev artists := GoMap fileTypes

/-- The type of the global `catalog`: `map[string]artists`. -/
abbrev Catalog := GoMap artists

/-- The initial value of the global: `var catalog = map[string]artists{}`. -/
def catalog : Catalog := []

/-- The four accessors of `tag.Metadata` that `visit` calls. -/
structure Metadata where
  Artist : String
  AlbumArtist : String
  Album : String
  FileType : FileType
  deriving DecidableEq, Repr

/-- The artist name `visit` computes at lines 76-79. -/
def artistName (m : Metadata) : String :=
  if m.AlbumArtist = "" then m.Artist else m.AlbumArtist

/-- Lines 72-83 of `visit`: fold one tag record into the catalog. Inner maps are
references in Go, so every mutation of an inner map is written back here. -/
def accumulate (catalog : Catalog) (m : Metadata) : Catalog :=
  let albumName := m.Album
  let catalog :=
    if (mapGet catalog albumName).isNone then mapSet catalog albumName [] else catalog
  let artistName := artistName m
  let album := (mapGet catalog albumName).getD []
  let album :=
    if (mapGet album artistName).isNone then mapSet album artistName [] else album
  let types := mapSet ((mapGet album artistName).getD []) m.FileType ()
  mapSet catalog albumName (mapSet album artistName types)

/-- The album entry a record is folded into: `catalog[m.Album()]`, an empty map when absent. -/
def albumOf (c : Catalog) (m : Metadata) : artists := (mapGet c m.Album).getD []

/-- The format set a record is folded into, an empty map when absent. -/
def typesOf (c : Catalog) (m : Metadata) : fileTypes :=
  (mapGet (albumOf c m) (artistName m)).getD []

/-- The catalog after the records of a list were accumulated one by one. -/
def accumulateAll (c : Catalog) (rs : List Metadata) : Catalog :=
  rs.foldl accumulate c

/-- The test `_, ok := catalog[b][a][t]`: format `t` is recorded for album `b`, artist `a`. -/
def has (c : Catalog) (b a : String) (t : FileType) : Bool :=
  match mapGet c b with
  | none => false
  | some arts =>
    match mapGet arts a with
    | none => false
    | some fts => (mapGet fts t).isSome

/-- The test `_, ok := catalog[b][a]`: the key path (album `b`, artist `a`) is present. -/
def hasPair (c : Catalog) (b a : String) : Bool :=
  match mapGet c b with
  | none => false
  | some arts => (mapGet arts a).isSome

/-- The test `_, ok := catalog[b]`: album `b` is a key. -/
def hasAlbum (c : Catalog) (b : String) : Bool := (mapGet c b).isSome

/-! ## The environment of `visit` -/

/-- A Go `error` value; `Option Error` is an `error` that may be `nil`. -/
abbrev Error := String

/-- An open `*os.File`, named by its descriptor. -/
abbrev Handle := Nat

/-- The kinds of entry `os.Lstat` distinguishes through the mode bits. -/
inductive FileKind
  | regular | dir | symlink | device | charDevice | namedPipe | socket | irregular
  deriving DecidableEq, Repr

/-- An `os.FileInfo`, as far as `visit` looks at it. -/
structure FileInfo where
  kind : FileKind
  deriving DecidableEq, Repr

/-- The method `FileInfo.IsDir`. -/
def FileInfo.IsDir (f : FileInfo) : Bool := f.kind = FileKind.dir

/-- One call of the walk function: the arguments `f` and `err` that
`filepath.Walk` passes, and what `os.Open(path)` and `tag.ReadFrom` would answer. -/
structure Entry where
  path : String
  f : Option FileInfo
  err : Option Error
  openResult : Except Error Handle
  readResult : Except Error Metadata

/-- A file operation of the program: a call of `os.Open` that returned the handle, or
a call of `Close` on the handle. -/
inductive FileOp
  | open (p : Handle)
  | close (p : Handle)
  deriving DecidableEq, Repr

/-- The mutable state: the global catalog, and the file operations the program has
performed, oldest first. What the Go runtime does to a file that is no longer
reachable is not an operation of the program and is not recorded. -/
structure State where
  catalog : Catalog
  fileOps : List FileOp
  deriving DecidableEq

/-- The state at process start. -/
def State.init : State := ⟨MusicCatalog.catalog, []⟩

/-- The function `visit` (lines 58-85). Returns the new state and the returned `error`.
The one file operation is the `os.Open` of line 62: the source calls `Close` nowhere. -/
def visit (s : State) (e : Entry) : State × Option Error :=
  match e.f with
  | none => (s, none)
  | some f =>
    if f.IsDir then (s, none)
    else
      match e.openResult with
      | .error _ => (s, none)
      | .ok p =>
        let s := { s with fileOps := s.fileOps ++ [FileOp.open p] }
        match e.readResult with
        | .error _ => (s, none)
        | .ok m => ({ s with catalog := accumulate s.catalog m }, none)

/-- The state after `visit` ran on the entries of a list, in order. -/
def visitAll (s : State) (es : List Entry) : State :=
  es.foldl (fun s e => (visit s e).1) s

/-! ## `filepath.Walk` and `doCatalog` (lines 87-91) -/

/-- What `filepath.Walk` finds at the root: `os.Lstat` fails, or the tree exists and
the walk calls the walk function on a sequence of entries. -/
inductive Root
  | missing (err : Error)
  | present (entries : List Entry)

/-- Run the walk function over entries until it returns a non-nil error. -/
def walkEntries (fn : State → Entry → State × Option Error) :
    State → List Entry → State × Option Error
  | s, [] => (s, none)
  | s, e :: es =>
    match fn s e with
    | (s1, none) => walkEntries fn s1 es
    | (s1, some err) => (s1, some err)

/-- The function `filepath.Walk` of the Go standard library: when `os.Lstat(root)`
fails, the walk function is called once with a nil `FileInfo` and that error, and
what it returns is the result of `Walk`. -/
def Walk (rootPath : String) (root : Root)
    (fn : State → Entry → State × Option Error) (s : State) : State × Option Error :=
  match root with
  | .missing err =>
    fn s ⟨rootPath, none, some err, .error err, .error err⟩
  | .present es => walkEntries fn s es

/-- The function `doCatalog`: the new state and the messages logged. -/
def doCatalog (rootPath : String) (root : Root) (s : State) : State × List String :=
  match Walk rootPath root visit s with
  | (s1, some err) => (s1, ["Error reading files: " ++ err])
  | (s1, none) => (s1, [])

/-! ## The emission loop of `Execute` (lines 99-107) -/

/-- Standard output: the characters written so far. -/
abbrev Stdout := String

/-- The call `fmt.Printf` with the format of line 101 and two strings. -/
def printfPair (o : Stdout) (artistName albumName : String) : Stdout :=
  o ++ "\"" ++ artistName ++ "\",\"" ++ albumName ++ "\""

/-- The call `fmt.Printf` with the format of line 103 and a file type. -/
def printfType (o : Stdout) (fileType : FileType) : Stdout :=
  o ++ ",\"" ++ fileType ++ "\""

/-- The call `fmt.Println()`: writes a line feed. -/
def println (o : Stdout) : Stdout :=
  o ++ "\n"

/-- The body of the loop over the artists of one album (lines 101-105). -/
def emitArtist (albumName : String) (o : Stdout) (entry : String × fileTypes) : Stdout :=
  let o := printfPair o entry.1 albumName
  let o := entry.2.foldl (fun o ft => printfType o ft.1) o
  println o

/-- The body of the loop over the albums (lines 100-106). -/
def emitAlbum (o : Stdout) (entry : String × artists) : Stdout :=
  entry.2.foldl (emitArtist entry.1) o

/-- The loop of `Execute` over the catalog, writing to standard output. -/
def emit (c : Catalog) (o : Stdout) : Stdout :=
  c.foldl emitAlbum o

/-- What the loop of `Execute` writes to standard output for a catalog. -/
def Execute (c : Catalog) : String := emit c ""

/-- The line-feed character. -/
def lf : Char := Char.ofNat 10

/-- The lines of a text: a line ends at a line feed; text after the last line feed
is a last line. -/
def linesOfChars : List Char → List (List Char)
  | [] => []
  | c :: cs =>
    if c = lf then [] :: linesOfChars cs
    else
      match linesOfChars cs with
      | [] => [[c]]
      | l :: ls => (c :: l) :: ls

/-- The lines of what was written to standard output. -/
def stdoutLines (o : Stdout) : List String := (linesOfChars o.data).map String.mk

/-! ## Predicates used in the statements -/

/-- The format keys recorded under `catalog[b][a]`, in iteration order; empty when the
key path is absent. -/
def formatsAt (c : Catalog) (b a : String) : List FileType :=
  match mapGet c b with
  | none => []
  | some arts =>
    match mapGet arts a with
    | none => []
    | some fts => mapKeys fts

/-- The key paths (album, artist) of a catalog, in iteration order. -/
def keyPaths (c : Catalog) : List (String × String) :=
  c.flatMap (fun e => e.2.map (fun x => (e.1, x.1)))

/-- Equality of two catalogs as Go maps: the same album keys, under each album the
same artist keys, under each key path the same format keys. -/
def Same (c d : Catalog) : Prop :=
  (∀ b, hasAlbum c b = hasAlbum d b) ∧
  (∀ b a, hasPair c b a = hasPair d b a) ∧
  (∀ b a t, has c b a t = has d b a t)

/-- A map of artists has one binding per artist and one per format below it. -/
def WFArtists (arts : artists) : Prop :=
  (mapKeys arts).Nodup ∧ ∀ q ∈ arts, (mapKeys q.2).Nodup

instance (arts : artists) : Decidable (WFArtists arts) := by
  unfold WFArtists; infer_instance

/-- The representation invariant of a Go map of maps: one binding per key at the
three levels of the catalog. -/
def WF (c : Catalog) : Prop :=
  (mapKeys c).Nodup ∧ ∀ p ∈ c, WFArtists p.2

instance (c : Catalog) : Decidable (WF c) := by
  unfold WF; infer_instance

/-- No album without artist and no artist without format. -/
def NonEmpty (c : Catalog) : Prop :=
  ∀ p ∈ c, p.2 ≠ [] ∧ ∀ q ∈ p.2, q.2 ≠ []

instance (c : Catalog) : Decidable (NonEmpty c) := by
  unfold NonEmpty; infer_instance

/-! ## What `visit` does with an entry -/

/-- The call `os.Open(path)` fails for the entry. -/
def openFails (e : Entry) : Bool :=
  match e.openResult with
  | .error _ => true
  | .ok _ => false

/-- The call `tag.ReadFrom` fails for the entry. -/
def readFails (e : Entry) : Bool :=
  match e.readResult with
  | .error _ => true
  | .ok _ => false

/-- A valid file: it opens and its tags are extracted. -/
def valid (e : Entry) : Bool := !openFails e && !readFails e

/-- The entry comes with a `FileInfo` that says regular file. -/
def isRegular (e : Entry) : Bool :=
  match e.f with
  | none => false
  | some f => f.kind = FileKind.regular

/-- The entry is skipped by the guard of line 59: no `FileInfo`, or a directory. -/
def skipped (e : Entry) : Bool :=
  match e.f with
  | none => true
  | some f => f.IsDir

/-- The handle `visit` obtains from `os.Open`, when it gets there and the call succeeds. -/
def opened (e : Entry) : Option Handle :=
  if skipped e then none
  else
    match e.openResult with
    | .error _ => none
    | .ok p => some p

/-- The tag record `visit` folds into the catalog, when it gets that far. -/
def extracted (e : Entry) : Option Metadata :=
  if skipped e then none
  else
    match e.openResult with
    | .error _ => none
    | .ok _ =>
      match e.readResult with
      | .error _ => none
      | .ok m => some m

/-! ## The text of a record, as the specification words it -/

/-- The double-quote character. -/
def quote : Char := Char.ofNat 34

/-- The comma character. -/
def comma : Char := Char.ofNat 44

/-- One field `,"<format>"` per format of the list, in the order of the list. -/
def typeFields : List FileType → String
  | [] => ""
  | f :: fs => ",\"" ++ f ++ "\"" ++ typeFields fs

/-- The record of the specification for one key path: the quoted artist, a comma, the quoted album, then
one quoted field per format; the characters of every field are copied as they are. -/
def specLine (artist album : String) (fs : List FileType) : String :=
  "\"" ++ artist ++ "\",\"" ++ album ++ "\"" ++ typeFields fs

/-- The text made of the given records, each followed by a line feed. -/
def unlines : List String → String
  | [] => ""
  | l :: ls => l ++ "\n" ++ unlines ls

/-- No line feed occurs in the string. -/
def lfFree (s : String) : Prop := lf ∉ s.data

instance (s : String) : Decidable (lfFree s) := by
  unfold lfFree; infer_instance

/-- No album name, artist name or format of the catalog holds a line feed. -/
def lfFreeCatalog (c : Catalog) : Prop :=
  ∀ e ∈ c, lfFree e.1 ∧ ∀ x ∈ e.2, lfFree x.1 ∧ ∀ t ∈ x.2, lfFree t.1

instance (c : Catalog) : Decidable (lfFreeCatalog c) := by
  unfold lfFreeCatalog; infer_instance

/-- No double quote occurs in the string. -/
def quoteFree (s : String) : Prop := quote ∉ s.data

instance (s : String) : Decidable (quoteFree s) := by
  unfold quoteFree; infer_instance

/-- The catalog with the one key path (album, artist), its formats iterated in the
order of the list. -/
def single (artist album : String) (fs : List FileType) : Catalog :=
  [(album, [(artist, fs.map (fun f => (f, ())))])]

/-! ## Lemmas on maps -/

theorem mapGet_mapSet {V : Type} (m : GoMap V) (k k' : String) (v : V) :
    mapGet (mapSet m k v) k' = if k = k' then some v else mapGet m k' := by
  induction m with
  | nil => simp [mapSet, mapGet]
  | cons p m ih =>
    obtain ⟨q, w⟩ := p
    by_cases h : q = k
    · subst h
      by_cases h' : q = k' <;> simp [mapSet, mapGet, h']
    · by_cases h' : q = k'
      · subst h'
        simp [mapSet, mapGet, h, Ne.symm h]
      · simp [mapSet, mapGet, h, h', ih]

theorem mapSet_of_mapGet {V : Type} (m : GoMap V) (k : String) (v : V)
    (h : mapGet m k = some v) : mapSet m k v = m := by
  induction m with
  | nil => simp [mapGet] at h
  | cons p m ih =>
    obtain ⟨q, w⟩ := p
    by_cases hq : q = k
    · subst hq
      simp [mapGet] at h
      simp [mapSet, h]
    · simp [mapGet, hq] at h
      simp [mapSet, hq, ih h]

theorem mapSet_mapSet {V : Type} (m : GoMap V) (k : String) (v w : V) :
    mapSet (mapSet m k v) k w = mapSet m k w := by
  induction m with
  | nil => simp [mapSet]
  | cons p m ih =>
    obtain ⟨q, u⟩ := p
    by_cases hq : q = k
    · subst hq
      simp [mapSet]
    · simp [mapSet, hq, ih]

/-! ## One accumulation step, seen through lookups -/

theorem accumulate_eq (c : Catalog) (m : Metadata) :
    accumulate c m =
      mapSet c m.Album (mapSet (albumOf c m) (artistName m)
        (mapSet (typesOf c m) m.FileType ())) := by
  unfold accumulate typesOf albumOf
  cases hc : mapGet c m.Album with
  | none =>
    simp [hc, mapGet_mapSet, mapSet_mapSet, mapGet, mapSet]
  | some A =>
    cases hA : mapGet A (artistName m) with
    | none => simp [hc, hA, mapGet_mapSet, mapSet_mapSet]
    | some T => simp [hc, hA]

theorem mapGet_accumulate (c : Catalog) (m : Metadata) (b : String) :
    mapGet (accumulate c m) b =
      if m.Album = b then
        some (mapSet (albumOf c m) (artistName m) (mapSet (typesOf c m) m.FileType ()))
      else mapGet c b := by
  rw [accumulate_eq, mapGet_mapSet]

theorem has_accumulate (c : Catalog) (m : Metadata) (b a : String) (t : FileType) :
    has (accumulate c m) b a t =
      (has c b a t || (decide (m.Album = b) && decide (artistName m = a)
        && decide (m.FileType = t))) := by
  unfold has
  rw [mapGet_accumulate]
  by_cases hb : m.Album = b
  · subst hb
    simp only [if_true, mapGet_mapSet]
    by_cases ha : artistName m = a
    · subst ha
      simp only [if_true, mapGet_mapSet]
      unfold typesOf albumOf
      by_cases ht : m.FileType = t
      · simp [ht]
      · cases hc : mapGet c m.Album with
        | none => simp [ht, mapGet]
        | some A => cases hA : mapGet A (artistName m) <;> simp [ht, hA, mapGet]
    · unfold albumOf
      cases hc : mapGet c m.Album <;> simp [ha, mapGet]
  · simp [hb]

theorem hasPair_accumulate (c : Catalog) (m : Metadata) (b a : String) :
    hasPair (accumulate c m) b a =
      (hasPair c b a || (decide (m.Album = b) && decide (artistName m = a))) := by
  unfold hasPair
  rw [mapGet_accumulate]
  by_cases hb : m.Album = b
  · subst hb
    simp only [if_true, mapGet_mapSet]
    unfold albumOf
    by_cases ha : artistName m = a
    · simp [ha]
    · cases hc : mapGet c m.Album <;> simp [ha, mapGet]
  · simp [hb]

theorem hasAlbum_accumulate (c : Catalog) (m : Metadata) (b : String) :
    hasAlbum (accumulate c m) b = (hasAlbum c b || decide (m.Album = b)) := by
  unfold hasAlbum
  rw [mapGet_accumulate]
  by_cases hb : m.Album = b <;> simp [hb]

theorem has_accumulateAll (rs : List Metadata) (c : Catalog) (b a : String) (t : FileType) :
    has (accumulateAll c rs) b a t = true ↔
      has c b a t = true ∨
        ∃ r ∈ rs, r.Album = b ∧ r.FileType = t ∧ artistName r = a := by
  induction rs generalizing c with
  | nil => simp [accumulateAll]
  | cons r rs ih =>
    have h := ih (accumulate c r)
    simp only [accumulateAll, List.foldl_cons] at h ⊢
    rw [h, has_accumulate]
    simp only [Bool.or_eq_true, Bool.and_eq_true, decide_eq_true_eq, List.mem_cons,
      exists_eq_or_imp]
    tauto

theorem hasPair_accumulateAll (rs : List Metadata) (c : Catalog) (b a : String) :
    hasPair (accumulateAll c rs) b a = true ↔
      hasPair c b a = true ∨ ∃ r ∈ rs, r.Album = b ∧ artistName r = a := by
  induction rs generalizing c with
  | nil => simp [accumulateAll]
  | cons r rs ih =>
    have h := ih (accumulate c r)
    simp only [accumulateAll, List.foldl_cons] at h ⊢
    rw [h, hasPair_accumulate]
    simp only [Bool.or_eq_true, Bool.and_eq_true, decide_eq_true_eq, List.mem_cons,
      exists_eq_or_imp]
    tauto

theorem hasAlbum_accumulateAll (rs : List Metadata) (c : Catalog) (b : String) :
    hasAlbum (accumulateAll c rs) b = true ↔
      hasAlbum c b = true ∨ ∃ r ∈ rs, r.Album = b := by
  induction rs generalizing c with
  | nil => simp [accumulateAll]
  | cons r rs ih =>
    have h := ih (accumulate c r)
    simp only [accumulateAll, List.foldl_cons] at h ⊢
    rw [h, hasAlbum_accumulate]
    simp only [Bool.or_eq_true, decide_eq_true_eq, List.mem_cons, exists_eq_or_imp]
    tauto

/-! ## Well-formedness is preserved -/

theorem mem_of_mapGet {V : Type} (m : GoMap V) (k : String) (v : V)
    (h : mapGet m k = some v) : (k, v) ∈ m := by
  induction m with
  | nil => simp [mapGet] at h
  | cons p m ih =>
    obtain ⟨q, w⟩ := p
    by_cases hq : q = k
    · subst hq
      simp [mapGet] at h
      simp [h]
    · simp [mapGet, hq] at h
      exact List.mem_cons_of_mem _ (ih h)

theorem mapGet_of_mem {V : Type} (m : GoMap V) (k : String) (v : V)
    (hn : (mapKeys m).Nodup) (h : (k, v) ∈ m) : mapGet m k = some v := by
  induction m with
  | nil => simp at h
  | cons p m ih =>
    obtain ⟨q, w⟩ := p
    simp only [mapKeys, List.map_cons, List.nodup_cons, List.mem_map, not_exists, not_and] at hn
    rcases List.mem_cons.1 h with h1 | h1
    · cases h1
      simp [mapGet]
    · have hq : q ≠ k := fun e => hn.1 (k, v) h1 e.symm
      simp only [mapGet, hq, if_false]
      exact ih hn.2 h1

theorem mem_mapSet {V : Type} (m : GoMap V) (k : String) (v : V) (p : String × V)
    (h : p ∈ mapSet m k v) : p = (k, v) ∨ p ∈ m := by
  induction m with
  | nil => simpa [mapSet] using h
  | cons x m ih =>
    obtain ⟨q, w⟩ := x
    by_cases hq : q = k
    · simp only [mapSet, hq, if_true, List.mem_cons] at h
      rcases h with h | h
      · exact Or.inl h
      · exact Or.inr (List.mem_cons_of_mem _ h)
    · simp only [mapSet, hq, if_false, List.mem_cons] at h
      rcases h with h | h
      · exact Or.inr (h ▸ List.mem_cons_self _ _)
      · rcases ih h with h | h
        · exact Or.inl h
        · exact Or.inr (List.mem_cons_of_mem _ h)

theorem mem_mapKeys_mapSet {V : Type} (m : GoMap V) (k : String) (v : V) (x : String) :
    x ∈ mapKeys (mapSet m k v) ↔ x = k ∨ x ∈ mapKeys m := by
  induction m with
  | nil => simp [mapSet, mapKeys]
  | cons p m ih =>
    obtain ⟨q, w⟩ := p
    by_cases hq : q = k
    · subst hq
      simp [mapSet, mapKeys]
    · simp only [mapKeys] at ih
      simp only [mapSet, hq, if_false, mapKeys, List.map_cons, List.mem_cons, ih]
      tauto

theorem nodup_mapKeys_mapSet {V : Type} (m : GoMap V) (k : String) (v : V)
    (h : (mapKeys m).Nodup) : (mapKeys (mapSet m k v)).Nodup := by
  induction m with
  | nil => simp [mapSet, mapKeys]
  | cons p m ih =>
    obtain ⟨q, w⟩ := p
    have h' : q ∉ mapKeys m ∧ (mapKeys m).Nodup := by
      simpa [mapKeys] using h
    by_cases hq : q = k
    · subst hq
      simpa [mapSet, mapKeys] using h
    · have hk : q ∉ mapKeys (mapSet m k v) := by
        rw [mem_mapKeys_mapSet]
        tauto
      have := ih h'.2
      simp only [mapSet, hq, if_false, mapKeys, List.map_cons, List.nodup_cons]
      exact ⟨hk, this⟩

theorem mapSet_ne_nil {V : Type} (m : GoMap V) (k : String) (v : V) : mapSet m k v ≠ [] := by
  cases m with
  | nil => simp [mapSet]
  | cons p m =>
    obtain ⟨q, w⟩ := p
    by_cases hq : q = k <;> simp [mapSet, hq]

theorem WFArtists_albumOf (c : Catalog) (m : Metadata) (h : WF c) : WFArtists (albumOf c m) := by
  unfold albumOf
  cases hc : mapGet c m.Album with
  | none => simp [WFArtists, mapKeys]
  | some A => exact h.2 _ (mem_of_mapGet _ _ _ hc)

theorem nodup_typesOf (c : Catalog) (m : Metadata) (h : WF c) : (mapKeys (typesOf c m)).Nodup := by
  unfold typesOf
  cases hA : mapGet (albumOf c m) (artistName m) with
  | none => simp [mapKeys]
  | some T => exact (WFArtists_albumOf c m h).2 _ (mem_of_mapGet _ _ _ hA)

theorem WF_accumulate (c : Catalog) (m : Metadata) (h : WF c) : WF (accumulate c m) := by
  rw [accumulate_eq]
  refine ⟨nodup_mapKeys_mapSet _ _ _ h.1, ?_⟩
  intro p hp
  rcases mem_mapSet _ _ _ _ hp with hp | hp
  · subst hp
    refine ⟨nodup_mapKeys_mapSet _ _ _ (WFArtists_albumOf c m h).1, ?_⟩
    intro q hq
    rcases mem_mapSet _ _ _ _ hq with hq | hq
    · subst hq
      exact nodup_mapKeys_mapSet _ _ _ (nodup_typesOf c m h)
    · exact (WFArtists_albumOf c m h).2 q hq
  · exact h.2 p hp

theorem WF_accumulateAll (rs : List Metadata) (c : Catalog) (h : WF c) :
    WF (accumulateAll c rs) := by
  induction rs generalizing c with
  | nil => exact h
  | cons r rs ih => exact ih _ (WF_accumulate c r h)

theorem WF_catalog : WF catalog := by decide

theorem nodup_formatsAt (c : Catalog) (h : WF c) (b a : String) : (formatsAt c b a).Nodup := by
  cases hc : mapGet c b with
  | none => simp [formatsAt, hc]
  | some A =>
    cases hA : mapGet A a with
    | none => simp [formatsAt, hc, hA]
    | some T =>
      simp only [formatsAt, hc, hA]
      exact (h.2 _ (mem_of_mapGet _ _ _ hc)).2 _ (mem_of_mapGet _ _ _ hA)

theorem mem_mapKeys_iff {V : Type} (m : GoMap V) (k : String) :
    k ∈ mapKeys m ↔ (mapGet m k).isSome = true := by
  induction m with
  | nil => simp [mapKeys, mapGet]
  | cons p m ih =>
    obtain ⟨q, w⟩ := p
    simp only [mapKeys] at ih
    by_cases hq : q = k
    · simp [mapKeys, mapGet, hq]
    · simp only [mapKeys, List.map_cons, List.mem_cons, mapGet, hq, if_false, ← ih]
      constructor
      · rintro (h | h)
        · exact absurd h.symm hq
        · exact h
      · exact Or.inr

theorem mem_formatsAt (c : Catalog) (b a : String) (t : FileType) :
    t ∈ formatsAt c b a ↔ has c b a t = true := by
  cases hc : mapGet c b with
  | none => simp [formatsAt, has, hc]
  | some A =>
    cases hA : mapGet A a with
    | none => simp [formatsAt, has, hc, hA]
    | some T => simp [formatsAt, has, hc, hA, mem_mapKeys_iff]

/-! ## Idempotence and order independence of the accumulation step -/

theorem accumulate_accumulate_self (c : Catalog) (r : Metadata) :
    accumulate (accumulate c r) r = accumulate c r := by
  have hA : albumOf (accumulate c r) r =
      mapSet (albumOf c r) (artistName r) (mapSet (typesOf c r) r.FileType ()) := by
    rw [albumOf, mapGet_accumulate]
    simp
  have hT : typesOf (accumulate c r) r = mapSet (typesOf c r) r.FileType () := by
    rw [typesOf, hA, mapGet_mapSet]
    simp
  rw [accumulate_eq (accumulate c r) r, hA, hT, mapSet_mapSet, mapSet_mapSet, accumulate_eq,
    mapSet_mapSet]

theorem Same_accumulate_swap (c : Catalog) (r1 r2 : Metadata) :
    Same (accumulate (accumulate c r1) r2) (accumulate (accumulate c r2) r1) := by
  refine ⟨fun b => ?_, fun b a => ?_, fun b a t => ?_⟩
  · simp only [hasAlbum_accumulate, Bool.or_assoc]
    congr 1
    exact Bool.or_comm _ _
  · simp only [hasPair_accumulate, Bool.or_assoc]
    congr 1
    exact Bool.or_comm _ _
  · simp only [has_accumulate, Bool.or_assoc]
    congr 1
    exact Bool.or_comm _ _

theorem Same_accumulateAll_of_perm (c : Catalog) (l1 l2 : List Metadata) (h : l1.Perm l2) :
    Same (accumulateAll c l1) (accumulateAll c l2) := by
  refine ⟨fun b => ?_, fun b a => ?_, fun b a t => ?_⟩
  · rw [Bool.eq_iff_iff, hasAlbum_accumulateAll, hasAlbum_accumulateAll]
    simp only [h.mem_iff]
  · rw [Bool.eq_iff_iff, hasPair_accumulateAll, hasPair_accumulateAll]
    simp only [h.mem_iff]
  · rw [Bool.eq_iff_iff, has_accumulateAll, has_accumulateAll]
    simp only [h.mem_iff]

/-! ## Claims on the accumulation step -/

/-- C1 (grouping correctness). A regular file that opens and yields tags is folded into
the catalog by the accumulation step; after any list of records was folded into the
empty catalog, format `t` is recorded under album `b` and artist `a` exactly when
some record of the list has album `b`, file type `t` and effective artist `a`
(the album artist when non-empty, the artist otherwise); and the three records
of the example give the catalog Low: Bowie: MP3, FLAC; Eno: MP3. -/
theorem visit_grouping_correct :
    (∀ (s : State) (path : String) (err : Option Error) (p : Handle) (r : Metadata),
      (visit s ⟨path, some ⟨FileKind.regular⟩, err, .ok p, .ok r⟩).1.catalog
        = accumulate s.catalog r) ∧
    (∀ (rs : List Metadata) (a b : String) (t : FileType),
      has (accumulateAll catalog rs) b a t = true ↔
        ∃ r ∈ rs, r.Album = b ∧ r.FileType = t ∧
          (if r.AlbumArtist = "" then r.Artist else r.AlbumArtist) = a) ∧
    accumulateAll catalog
        [⟨"Bowie", "", "Low", "MP3"⟩, ⟨"Bowie", "", "Low", "FLAC"⟩, ⟨"Eno", "", "Low", "MP3"⟩]
      = [("Low", [("Bowie", [("MP3", ()), ("FLAC", ())]), ("Eno", [("MP3", ())])])] := by
  refine ⟨fun s path err p r => rfl, fun rs a b t => ?_, by decide⟩
  rw [has_accumulateAll]
  simp [has, catalog, mapGet, artistName]

/-- C6 (idempotent insertion). Accumulating a record twice gives the same catalog as
accumulating it once; and in the catalog built from any list of records the format
list of every key path has no duplicate, a format occurring in it exactly once
when some record contributed it, however many did. -/
theorem accumulate_idempotent :
    (∀ (c : Catalog) (r : Metadata), accumulate (accumulate c r) r = accumulate c r) ∧
    (∀ (rs : List Metadata) (b a : String), (formatsAt (accumulateAll catalog rs) b a).Nodup) ∧
    (∀ (rs : List Metadata) (b a : String) (t : FileType),
      (formatsAt (accumulateAll catalog rs) b a).count t =
        if ∃ r ∈ rs, r.Album = b ∧ r.FileType = t ∧ artistName r = a then 1 else 0) := by
  refine ⟨accumulate_accumulate_self, fun rs b a => ?_, fun rs b a t => ?_⟩
  · exact nodup_formatsAt _ (WF_accumulateAll rs _ WF_catalog) b a
  · have hn := nodup_formatsAt _ (WF_accumulateAll rs _ WF_catalog) b a
    have hm := mem_formatsAt (accumulateAll catalog rs) b a t
    rw [has_accumulateAll] at hm
    simp only [has, catalog, mapGet, Bool.false_eq_true, false_or] at hm
    by_cases h : ∃ r ∈ rs, r.Album = b ∧ r.FileType = t ∧ artistName r = a
    · rw [if_pos h]
      exact List.count_eq_one_of_mem hn (hm.2 h)
    · rw [if_neg h]
      exact List.count_eq_zero_of_not_mem (fun hmem => h (hm.1 hmem))

/-- C7 (traversal-order independence). Accumulating two records in either order gives
the same catalog, and so does folding any permutation of a list of records into
the empty catalog; catalogs are compared as Go maps. -/
theorem accumulate_order_independent :
    (∀ (c : Catalog) (r1 r2 : Metadata),
      Same (accumulate (accumulate c r1) r2) (accumulate (accumulate c r2) r1)) ∧
    (∀ l1 l2 : List Metadata, l1.Perm l2 →
      Same (accumulateAll catalog l1) (accumulateAll catalog l2)) :=
  ⟨Same_accumulate_swap, Same_accumulateAll_of_perm catalog⟩

/-- C7 at two records of one album, swapped. -/
theorem accumulate_order_independent_witness :
    [(⟨"Bowie", "", "Low", "MP3"⟩ : Metadata), ⟨"Eno", "", "Low", "FLAC"⟩].Perm
        [⟨"Eno", "", "Low", "FLAC"⟩, ⟨"Bowie", "", "Low", "MP3"⟩] ∧
      Same (accumulateAll catalog [⟨"Bowie", "", "Low", "MP3"⟩, ⟨"Eno", "", "Low", "FLAC"⟩])
        (accumulateAll catalog [⟨"Eno", "", "Low", "FLAC"⟩, ⟨"Bowie", "", "Low", "MP3"⟩]) :=
  ⟨List.Perm.swap _ _ _, accumulate_order_independent.2 _ _ (List.Perm.swap _ _ _)⟩

/-! ## `visit` on one entry and on a sequence of entries -/

theorem visit_returns_nil (s : State) (e : Entry) : (visit s e).2 = none := by
  unfold visit
  split
  · rfl
  · split
    · rfl
    · split
      · rfl
      · split <;> rfl

theorem visit_catalog (s : State) (e : Entry) :
    (visit s e).1.catalog =
      match extracted e with
      | none => s.catalog
      | some m => accumulate s.catalog m := by
  obtain ⟨path, f, err, o, r⟩ := e
  cases f with
  | none => rfl
  | some f =>
    by_cases hd : f.IsDir = true
    · simp [visit, extracted, skipped, hd]
    · cases o with
      | error x => simp [visit, extracted, skipped, hd]
      | ok p => cases r <;> simp [visit, extracted, skipped, hd]

theorem visit_fileOps (s : State) (e : Entry) :
    (visit s e).1.fileOps =
      match opened e with
      | none => s.fileOps
      | some p => s.fileOps ++ [FileOp.open p] := by
  obtain ⟨path, f, err, o, r⟩ := e
  cases f with
  | none => rfl
  | some f =>
    by_cases hd : f.IsDir = true
    · simp [visit, opened, skipped, hd]
    · cases o with
      | error x => simp [visit, opened, skipped, hd]
      | ok p => cases r <;> simp [visit, opened, skipped, hd]

theorem visit_kind_irrelevant (s : State) (e : Entry) (f : FileInfo) (hf : e.f = some f)
    (hk : f.kind ≠ FileKind.dir) :
    visit s e = visit s { e with f := some ⟨FileKind.regular⟩ } := by
  obtain ⟨path, f0, err, o, r⟩ := e
  simp only at hf
  subst hf
  have hd : f.IsDir = false := by simp [FileInfo.IsDir, hk]
  have hr : (FileInfo.mk FileKind.regular).IsDir = false := rfl
  simp [visit, hd, hr]

theorem visitAll_catalog (es : List Entry) (s : State) :
    (visitAll s es).catalog = accumulateAll s.catalog (es.filterMap extracted) := by
  induction es generalizing s with
  | nil => rfl
  | cons e es ih =>
    have h := ih (visit s e).1
    simp only [visitAll, List.foldl_cons] at h ⊢
    rw [h, visit_catalog]
    cases he : extracted e <;> simp [List.filterMap_cons, he, accumulateAll]

theorem extracted_of_not_valid (e : Entry) (h : valid e = false) : extracted e = none := by
  obtain ⟨path, f, err, o, r⟩ := e
  cases o with
  | error x => simp [extracted]
  | ok p =>
    cases r with
    | error x => simp [extracted]
    | ok m => simp [valid, openFails, readFails] at h

theorem filterMap_extracted_filter_valid (es : List Entry) :
    (es.filter valid).filterMap extracted = es.filterMap extracted := by
  induction es with
  | nil => rfl
  | cons e es ih =>
    cases hv : valid e
    · simp [List.filter_cons, hv, List.filterMap_cons, extracted_of_not_valid e hv, ih]
    · simp [List.filter_cons, hv, List.filterMap_cons, ih]

theorem walkEntries_visit (es : List Entry) (s : State) :
    walkEntries visit s es = (visitAll s es, none) := by
  induction es generalizing s with
  | nil => rfl
  | cons e es ih =>
    have hn := visit_returns_nil s e
    have h := ih (visit s e).1
    simp only [visitAll, List.foldl_cons] at h ⊢
    rw [← h]
    cases hv : visit s e with
    | mk s1 r =>
      rw [hv] at hn
      simp only at hn
      subst hn
      simp [walkEntries, hv]

/-! ## Claims on `visit` and `doCatalog` -/

/-- C3 (resilience). When the open or the tag extraction of an entry fails, `visit`
leaves the catalog as it was and returns nil; the catalog built from the empty one
over any sequence of entries is the catalog built over the valid entries of that
sequence alone; `visit` returns nil on every entry, so the walk runs over all the
entries and ends without error. -/
theorem visit_resilient :
    (∀ (s : State) (e : Entry), openFails e = true ∨ readFails e = true →
      (visit s e).1.catalog = s.catalog ∧ (visit s e).2 = none) ∧
    (∀ es : List Entry,
      (visitAll State.init es).catalog = (visitAll State.init (es.filter valid)).catalog) ∧
    (∀ (s : State) (e : Entry), (visit s e).2 = none) ∧
    (∀ (path : String) (es : List Entry) (s : State),
      Walk path (Root.present es) visit s = (visitAll s es, none)) := by
  refine ⟨fun s e h => ⟨?_, visit_returns_nil s e⟩, fun es => ?_, visit_returns_nil,
    fun path es s => walkEntries_visit es s⟩
  · have hv : valid e = false := by
      rcases h with h | h <;> simp [valid, h]
    rw [visit_catalog, extracted_of_not_valid e hv]
  · rw [visitAll_catalog, visitAll_catalog, filterMap_extracted_filter_valid]

/-- C3 at a regular file whose open fails, visited with a catalog that holds one album. -/
theorem visit_resilient_witness :
    (openFails ⟨"Low/a.mp3", some ⟨FileKind.regular⟩, none, .error "permission denied",
        .error "permission denied"⟩ = true ∨
      readFails ⟨"Low/a.mp3", some ⟨FileKind.regular⟩, none, .error "permission denied",
        .error "permission denied"⟩ = true) ∧
    (visit ⟨[("Low", [("Eno", [("MP3", ())])])], []⟩
        ⟨"Low/a.mp3", some ⟨FileKind.regular⟩, none, .error "permission denied",
          .error "permission denied"⟩).1.catalog = [("Low", [("Eno", [("MP3", ())])])] :=
  ⟨Or.inl rfl, (visit_resilient.1 ⟨[("Low", [("Eno", [("MP3", ())])])], []⟩
    ⟨"Low/a.mp3", some ⟨FileKind.regular⟩, none, .error "permission denied",
      .error "permission denied"⟩ (Or.inl rfl)).1⟩

/-- C4 (traversal-start error). When `os.Lstat` fails on the root, `filepath.Walk`
calls `visit` with a nil `FileInfo`; `visit` returns nil, so `Walk` returns nil and
`doCatalog` logs nothing: the error is not surfaced. -/
theorem doCatalog_missing_root_silent (rootPath : String) (err : Error) (s : State) :
    Walk rootPath (Root.missing err) visit s = (s, none) ∧
    doCatalog rootPath (Root.missing err) s = (s, []) := by
  constructor <;> rfl

/-- C5, as the claim states it, fails: a symbolic link is not a regular file, yet
`visit` opens it, reads the tags and changes the catalog. -/
theorem visit_symlink_changes_catalog :
    isRegular ⟨"Low/link.mp3", some ⟨FileKind.symlink⟩, none, .ok 3,
        .ok ⟨"Bowie", "", "Low", "MP3"⟩⟩ = false ∧
    (visit State.init ⟨"Low/link.mp3", some ⟨FileKind.symlink⟩, none, .ok 3,
        .ok ⟨"Bowie", "", "Low", "MP3"⟩⟩).1.catalog = [("Low", [("Bowie", [("MP3", ())])])] ∧
    (visit State.init ⟨"Low/link.mp3", some ⟨FileKind.symlink⟩, none, .ok 3,
        .ok ⟨"Bowie", "", "Low", "MP3"⟩⟩).1.catalog ≠ State.init.catalog := by
  refine ⟨rfl, by decide, by decide⟩

/-- C5, amended. For an entry without `FileInfo` and for a directory, `visit` leaves
the state as it was and returns nil, whatever opening the entry and reading its tags
would give. For an entry of any other kind (regular file, symbolic link, device,
socket, pipe) `visit` does not look at the kind: it does what it does for a regular
file, and when `os.Open` returns a handle and `tag.ReadFrom` a record, the record is
folded into the catalog and nil is returned. -/
theorem visit_skips_nil_and_dir :
    (∀ (s : State) (e : Entry), skipped e = true →
      (visit s e).1 = s ∧ (visit s e).2 = none) ∧
    (∀ (s : State) (e : Entry) (f : FileInfo), e.f = some f → f.kind ≠ FileKind.dir →
      visit s e = visit s { e with f := some ⟨FileKind.regular⟩ }) ∧
    (∀ (s : State) (e : Entry) (f : FileInfo) (p : Handle) (m : Metadata),
      e.f = some f → f.kind ≠ FileKind.dir → e.openResult = .ok p → e.readResult = .ok m →
      (visit s e).1.catalog = accumulate s.catalog m ∧ (visit s e).2 = none) := by
  refine ⟨fun s e h => ?_, visit_kind_irrelevant, fun s e f p m hf hk ho hr => ?_⟩
  · obtain ⟨path, f, err, o, r⟩ := e
    cases f with
    | none => exact ⟨rfl, rfl⟩
    | some f =>
      have hd : f.IsDir = true := h
      simp [visit, hd]
  · obtain ⟨path, f0, err, o, r⟩ := e
    simp only at hf ho hr
    subst hf ho hr
    have hd : f.IsDir = false := by simp [FileInfo.IsDir, hk]
    simp [visit, hd]

/-- C5 amended, at a directory that would open and yield tags, and at a character
device that opens and yields tags. -/
theorem visit_skips_nil_and_dir_witness :
    (skipped ⟨"Low", some ⟨FileKind.dir⟩, none, .ok 3, .ok ⟨"Bowie", "", "Low", "MP3"⟩⟩ = true ∧
      (visit State.init
          ⟨"Low", some ⟨FileKind.dir⟩, none, .ok 3, .ok ⟨"Bowie", "", "Low", "MP3"⟩⟩).1
        = State.init) ∧
    (FileKind.charDevice ≠ FileKind.dir ∧
      (visit State.init ⟨"Low/tty", some ⟨FileKind.charDevice⟩, none, .ok 3,
          .ok ⟨"Bowie", "", "Low", "MP3"⟩⟩).1.catalog
        = [("Low", [("Bowie", [("MP3", ())])])]) :=
  ⟨⟨rfl, (visit_skips_nil_and_dir.1 State.init
      ⟨"Low", some ⟨FileKind.dir⟩, none, .ok 3, .ok ⟨"Bowie", "", "Low", "MP3"⟩⟩ rfl).1⟩,
    ⟨by decide, (visit_skips_nil_and_dir.2.2 State.init
      ⟨"Low/tty", some ⟨FileKind.charDevice⟩, none, .ok 3, .ok ⟨"Bowie", "", "Low", "MP3"⟩⟩
      ⟨FileKind.charDevice⟩ 3 ⟨"Bowie", "", "Low", "MP3"⟩ rfl (by decide) rfl rfl).1⟩⟩

/-- C8, as the claim states it, fails: when `visit` returns from a regular file it
opened, the one file operation it performed is the open; the handle was not closed. -/
theorem visit_leaves_file_open :
    (visit State.init ⟨"Low/a.mp3", some ⟨FileKind.regular⟩, none, .ok 3,
        .ok ⟨"Bowie", "", "Low", "MP3"⟩⟩).1.fileOps = [FileOp.open 3] ∧
    FileOp.close 3 ∉ (visit State.init ⟨"Low/a.mp3", some ⟨FileKind.regular⟩, none, .ok 3,
        .ok ⟨"Bowie", "", "Low", "MP3"⟩⟩).1.fileOps := by
  refine ⟨by decide, by decide⟩

/-- C8, amended. The function `visit` returns without closing the handle it opened:
when it opens an entry, whether the tag extraction then succeeds or fails, the one file
operation it performs is that open; when it skips the entry or the open fails it
performs none; in no case does it close a handle. -/
theorem visit_never_closes :
    (∀ (s : State) (e : Entry) (p : Handle), opened e = some p →
      (visit s e).1.fileOps = s.fileOps ++ [FileOp.open p]) ∧
    (∀ (s : State) (e : Entry), opened e = none → (visit s e).1.fileOps = s.fileOps) ∧
    (∀ (s : State) (e : Entry) (h : Handle),
      FileOp.close h ∈ (visit s e).1.fileOps → FileOp.close h ∈ s.fileOps) := by
  refine ⟨fun s e p h => ?_, fun s e h => ?_, fun s e h hc => ?_⟩
  · rw [visit_fileOps, h]
  · rw [visit_fileOps, h]
  · rw [visit_fileOps] at hc
    cases ho : opened e with
    | none => simpa [ho] using hc
    | some p => simpa [ho] using hc

/-- C8 amended, at a regular file that opens and whose tag extraction fails. -/
theorem visit_never_closes_witness :
    opened ⟨"Low/a.txt", some ⟨FileKind.regular⟩, none, .ok 3, .error "no tags found"⟩
      = some 3 ∧
    (visit State.init
        ⟨"Low/a.txt", some ⟨FileKind.regular⟩, none, .ok 3, .error "no tags found"⟩).1.fileOps
      = [FileOp.open 3] :=
  ⟨rfl, visit_never_closes.1 State.init
    ⟨"Low/a.txt", some ⟨FileKind.regular⟩, none, .ok 3, .error "no tags found"⟩ 3 rfl⟩

/-! ## The emission loop, unfolded -/

theorem unlines_append (l1 l2 : List String) :
    unlines (l1 ++ l2) = unlines l1 ++ unlines l2 := by
  induction l1 with
  | nil => simp [unlines]
  | cons l l1 ih =>
    rw [List.cons_append, unlines, unlines, ih]
    simp only [String.append_assoc]

theorem foldl_printfType (fts : fileTypes) (o : Stdout) :
    fts.foldl (fun o ft => printfType o ft.1) o = o ++ typeFields (mapKeys fts) := by
  induction fts generalizing o with
  | nil => simp [mapKeys, typeFields]
  | cons x fts ih =>
    rw [List.foldl_cons, ih]
    simp only [printfType, mapKeys, List.map_cons, typeFields, String.append_assoc]

theorem emitArtist_eq (albumName : String) (o : Stdout) (entry : String × fileTypes) :
    emitArtist albumName o entry =
      o ++ (specLine entry.1 albumName (mapKeys entry.2) ++ "\n") := by
  simp only [emitArtist, foldl_printfType, printfPair, println, specLine, String.append_assoc]

theorem foldl_emitArtist (albumName : String) (arts : artists) (o : Stdout) :
    arts.foldl (emitArtist albumName) o =
      o ++ unlines (arts.map (fun x => specLine x.1 albumName (mapKeys x.2))) := by
  induction arts generalizing o with
  | nil => simp [unlines]
  | cons x arts ih =>
    rw [List.foldl_cons, emitArtist_eq, ih]
    simp only [List.map_cons, unlines, String.append_assoc]

theorem emit_eq (c : Catalog) (o : Stdout) :
    emit c o =
      o ++ unlines (c.flatMap (fun e => e.2.map (fun x => specLine x.1 e.1 (mapKeys x.2)))) := by
  induction c generalizing o with
  | nil => simp [emit, unlines]
  | cons e c ih =>
    simp only [emit] at ih
    simp only [emit, List.foldl_cons]
    rw [emitAlbum, foldl_emitArtist, ih]
    simp only [List.flatMap_cons, unlines_append, String.append_assoc]

theorem Execute_eq (c : Catalog) :
    Execute c =
      unlines (c.flatMap (fun e => e.2.map (fun x => specLine x.1 e.1 (mapKeys x.2)))) := by
  simp [Execute, emit_eq]

theorem formatsAt_of_mem (c : Catalog) (h : WF c) (e : String × artists) (he : e ∈ c)
    (x : String × fileTypes) (hx : x ∈ e.2) : formatsAt c e.1 x.1 = mapKeys x.2 := by
  have h1 : mapGet c e.1 = some e.2 := mapGet_of_mem c e.1 e.2 h.1 he
  have h2 : mapGet e.2 x.1 = some x.2 := mapGet_of_mem e.2 x.1 x.2 (h.2 e he).1 hx
  simp [formatsAt, h1, h2]

theorem records_eq_keyPaths (c : Catalog) (h : WF c) :
    c.flatMap (fun e => e.2.map (fun x => specLine x.1 e.1 (mapKeys x.2))) =
      (keyPaths c).map (fun p => specLine p.2 p.1 (formatsAt c p.1 p.2)) := by
  rw [keyPaths, List.map_flatMap]
  apply List.flatMap_congr
  intro e he
  rw [List.map_map]
  apply List.map_congr_left
  intro x hx
  simp only [Function.comp_apply]
  rw [formatsAt_of_mem c h e he x hx]

theorem Execute_eq_keyPaths (c : Catalog) (h : WF c) :
    Execute c = unlines ((keyPaths c).map (fun p => specLine p.2 p.1 (formatsAt c p.1 p.2))) := by
  rw [Execute_eq, records_eq_keyPaths c h]

theorem nodup_keyPaths (c : Catalog) (h : WF c) : (keyPaths c).Nodup := by
  rw [keyPaths, List.nodup_flatMap]
  constructor
  · intro e he
    have hk : (mapKeys e.2).Nodup := (h.2 e he).1
    have : e.2.map (fun x => (e.1, x.1)) = (mapKeys e.2).map (Prod.mk e.1) := by
      simp [mapKeys, List.map_map, Function.comp_def]
    rw [this]
    exact hk.map (fun a b hab => (Prod.mk.inj hab).2)
  · have hp : List.Pairwise (fun e1 e2 : String × artists => e1.1 ≠ e2.1) c :=
      List.pairwise_map.1 h.1
    refine hp.imp ?_
    intro e1 e2 hne
    simp only [Function.onFun]
    intro p h1 h2
    rcases List.mem_map.1 h1 with ⟨x1, _, rfl⟩
    rcases List.mem_map.1 h2 with ⟨x2, _, hx2⟩
    exact hne (Prod.mk.inj hx2).1.symm

theorem mem_keyPaths (c : Catalog) (h : WF c) (b a : String) :
    (b, a) ∈ keyPaths c ↔ hasPair c b a = true := by
  constructor
  · intro hm
    rcases List.mem_flatMap.1 hm with ⟨e, he, hm⟩
    rcases List.mem_map.1 hm with ⟨x, hx, hxe⟩
    have h1 : mapGet c e.1 = some e.2 := mapGet_of_mem c e.1 e.2 h.1 he
    have h2 : mapGet e.2 x.1 = some x.2 := mapGet_of_mem e.2 x.1 x.2 (h.2 e he).1 hx
    cases hxe
    simp [hasPair, h1, h2]
  · intro hp
    cases hc : mapGet c b with
    | none => simp [hasPair, hc] at hp
    | some A =>
      cases hA : mapGet A a with
      | none => simp [hasPair, hc, hA] at hp
      | some T =>
        exact List.mem_flatMap.2 ⟨(b, A), mem_of_mapGet _ _ _ hc,
          List.mem_map.2 ⟨(a, T), mem_of_mapGet _ _ _ hA, rfl⟩⟩

/-! ## Records and lines as lists of characters -/

theorem typeFields_nil_data : (typeFields []).data = [] := rfl

theorem typeFields_cons_data (f : FileType) (fs : List FileType) :
    (typeFields (f :: fs)).data = comma :: quote :: (f.data ++ quote :: (typeFields fs).data) := by
  simp only [typeFields, String.data_append, List.append_assoc]
  rfl

theorem specLine_data (a b : String) (fs : List FileType) :
    (specLine a b fs).data =
      quote :: (a.data ++ quote :: comma :: quote :: (b.data ++ quote :: (typeFields fs).data)) := by
  simp only [specLine, String.data_append, List.append_assoc]
  rfl

theorem split_at_quote (x x' r r' : List Char) (hx : quote ∉ x) (hx' : quote ∉ x')
    (h : x ++ quote :: r = x' ++ quote :: r') : x = x' ∧ r = r' := by
  induction x generalizing x' with
  | nil =>
    cases x' with
    | nil => simpa using h
    | cons d x' =>
      simp only [List.nil_append, List.cons_append, List.cons.injEq] at h
      exact absurd (List.mem_cons.2 (Or.inl h.1)) hx'
  | cons d x ih =>
    cases x' with
    | nil =>
      simp only [List.nil_append, List.cons_append, List.cons.injEq] at h
      exact absurd (List.mem_cons.2 (Or.inl h.1.symm)) hx
    | cons d' x' =>
      simp only [List.cons_append, List.cons.injEq] at h
      have hx1 : quote ∉ x := fun hm => hx (List.mem_cons_of_mem _ hm)
      have hx2 : quote ∉ x' := fun hm => hx' (List.mem_cons_of_mem _ hm)
      obtain ⟨e1, e2⟩ := ih x' hx1 hx2 h.2
      exact ⟨by rw [h.1, e1], e2⟩

theorem typeFields_injective (fs fs' : List FileType) (hfs : ∀ f ∈ fs, quoteFree f)
    (hfs' : ∀ f ∈ fs', quoteFree f) (h : (typeFields fs).data = (typeFields fs').data) :
    fs = fs' := by
  induction fs generalizing fs' with
  | nil =>
    cases fs' with
    | nil => rfl
    | cons g fs' =>
      rw [typeFields_nil_data, typeFields_cons_data] at h
      exact absurd h (by simp)
  | cons f fs ih =>
    cases fs' with
    | nil =>
      rw [typeFields_nil_data, typeFields_cons_data] at h
      exact absurd h (by simp)
    | cons g fs' =>
      rw [typeFields_cons_data, typeFields_cons_data] at h
      simp only [List.cons.injEq, true_and] at h
      obtain ⟨e1, e2⟩ := split_at_quote _ _ _ _ (hfs f (List.mem_cons_self _ _))
        (hfs' g (List.mem_cons_self _ _)) h
      have hf : f = g := String.ext e1
      have := ih fs' (fun x hx => hfs x (List.mem_cons_of_mem _ hx))
        (fun x hx => hfs' x (List.mem_cons_of_mem _ hx)) e2
      rw [hf, this]

theorem specLine_injective (a a' b b' : String) (fs fs' : List FileType)
    (ha : quoteFree a) (ha' : quoteFree a') (hb : quoteFree b) (hb' : quoteFree b')
    (hfs : ∀ f ∈ fs, quoteFree f) (hfs' : ∀ f ∈ fs', quoteFree f)
    (h : specLine a b fs = specLine a' b' fs') : a = a' ∧ b = b' ∧ fs = fs' := by
  have hd := congrArg String.data h
  rw [specLine_data, specLine_data] at hd
  simp only [List.cons.injEq, true_and] at hd
  obtain ⟨e1, e2⟩ := split_at_quote _ _ _ _ ha ha' hd
  simp only [List.cons.injEq, true_and] at e2
  obtain ⟨e3, e4⟩ := split_at_quote _ _ _ _ hb hb' e2
  exact ⟨String.ext e1, String.ext e3, typeFields_injective fs fs' hfs hfs' e4⟩

theorem unlines_cons_data (l : String) (ls : List String) :
    (unlines (l :: ls)).data = l.data ++ lf :: (unlines ls).data := by
  simp only [unlines, String.data_append, List.append_assoc]
  rfl

theorem linesOfChars_append (l rest : List Char) (h : lf ∉ l) :
    linesOfChars (l ++ lf :: rest) = l :: linesOfChars rest := by
  induction l with
  | nil => simp [linesOfChars]
  | cons d l ih =>
    have hd : d ≠ lf := fun e => h (e ▸ List.mem_cons_self _ _)
    have hl : lf ∉ l := fun hm => h (List.mem_cons_of_mem _ hm)
    rw [List.cons_append, linesOfChars, if_neg hd, ih hl]

theorem stdoutLines_unlines (ls : List String) (h : ∀ l ∈ ls, lfFree l) :
    stdoutLines (unlines ls) = ls := by
  induction ls with
  | nil => rfl
  | cons l ls ih =>
    have h1 : lfFree l := h l (List.mem_cons_self _ _)
    have h2 := ih (fun x hx => h x (List.mem_cons_of_mem _ hx))
    unfold stdoutLines at h2 ⊢
    rw [unlines_cons_data, linesOfChars_append _ _ h1, List.map_cons, h2]

theorem lfFree_typeFields (fs : List FileType) (h : ∀ f ∈ fs, lfFree f) :
    lf ∉ (typeFields fs).data := by
  induction fs with
  | nil => simp [typeFields_nil_data]
  | cons f fs ih =>
    have h1 : lf ∉ f.data := h f (List.mem_cons_self _ _)
    have h2 := ih (fun x hx => h x (List.mem_cons_of_mem _ hx))
    have hc : lf ≠ comma := by decide
    have hq : lf ≠ quote := by decide
    rw [typeFields_cons_data]
    simp [hc, hq, h1, h2]

theorem lfFree_specLine (a b : String) (fs : List FileType) (ha : lfFree a) (hb : lfFree b)
    (h : ∀ f ∈ fs, lfFree f) : lfFree (specLine a b fs) := by
  have h2 := lfFree_typeFields fs h
  have hc : lf ≠ comma := by decide
  have hq : lf ≠ quote := by decide
  have ha1 : lf ∉ a.data := ha
  have hb1 : lf ∉ b.data := hb
  unfold lfFree
  rw [specLine_data]
  simp [hc, hq, ha1, hb1, h2]

theorem lfFree_records (c : Catalog) (h : lfFreeCatalog c) :
    ∀ l ∈ c.flatMap (fun e => e.2.map (fun x => specLine x.1 e.1 (mapKeys x.2))), lfFree l := by
  intro l hl
  rcases List.mem_flatMap.1 hl with ⟨e, he, hl⟩
  rcases List.mem_map.1 hl with ⟨x, hx, rfl⟩
  refine lfFree_specLine _ _ _ ((h e he).2 x hx).1 (h e he).1 ?_
  intro f hf
  rcases List.mem_map.1 hf with ⟨t, ht, rfl⟩
  exact ((h e he).2 x hx).2 t ht

theorem stdoutLines_Execute (c : Catalog) (h : lfFreeCatalog c) :
    stdoutLines (Execute c) =
      c.flatMap (fun e => e.2.map (fun x => specLine x.1 e.1 (mapKeys x.2))) := by
  rw [Execute_eq, stdoutLines_unlines _ (lfFree_records c h)]

theorem Execute_single (a b : String) (fs : List FileType) :
    Execute (single a b fs) = specLine a b fs ++ "\n" := by
  simp [Execute_eq, single, mapKeys, List.map_map, Function.comp_def, unlines]

theorem NonEmpty_accumulate (c : Catalog) (m : Metadata) (h : NonEmpty c) :
    NonEmpty (accumulate c m) := by
  rw [accumulate_eq]
  intro p hp
  rcases mem_mapSet _ _ _ _ hp with hp | hp
  · subst hp
    refine ⟨mapSet_ne_nil _ _ _, ?_⟩
    intro q hq
    rcases mem_mapSet _ _ _ _ hq with hq | hq
    · subst hq
      exact mapSet_ne_nil _ _ _
    · unfold albumOf at hq
      cases hc : mapGet c m.Album with
      | none => simp [hc] at hq
      | some A =>
        simp only [hc, Option.getD_some] at hq
        exact (h _ (mem_of_mapGet _ _ _ hc)).2 q hq
  · exact h p hp

theorem NonEmpty_accumulateAll (rs : List Metadata) (c : Catalog) (h : NonEmpty c) :
    NonEmpty (accumulateAll c rs) := by
  induction rs generalizing c with
  | nil => exact h
  | cons r rs ih => exact ih _ (NonEmpty_accumulate c r h)

/-! ## Claims on the emission -/

/-- C2, as the claim states it, fails: an artist name that holds a line feed is copied
as it is, so the one key path of this catalog, reached by one `visit`, is printed
on two lines of standard output. -/
theorem Execute_line_feed_splits_record :
    (visitAll State.init [⟨"Low/a.flac", some ⟨FileKind.regular⟩, none, .ok 3,
        .ok ⟨"A\nB", "", "Low", "FLAC"⟩⟩]).catalog = [("Low", [("A\nB", [("FLAC", ())])])] ∧
    WF [("Low", [("A\nB", [("FLAC", ())])])] ∧
    (keyPaths [("Low", [("A\nB", [("FLAC", ())])])]).length = 1 ∧
    stdoutLines (Execute [("Low", [("A\nB", [("FLAC", ())])])]) =
      ["\"A", "B\",\"Low\",\"FLAC\""] ∧
    (stdoutLines (Execute [("Low", [("A\nB", [("FLAC", ())])])])).length = 2 := by
  refine ⟨by decide, by decide, by decide, by decide, by decide⟩

/-- C2, amended. For a catalog with one binding per key, what `Execute` writes is one
record per key path (album, artist) of the catalog, each followed by a line feed: the
list of key paths has no duplicate and holds exactly the pairs present in the catalog;
the record of a pair is the quoted artist, the quoted album, then one quoted field per
format of the pair, characters copied as they are, the formats being listed without
duplicate and being exactly those recorded for the pair. When no album, artist or
format holds a line feed, the lines of standard output are these records, as many
as there are pairs. The empty catalog gives no line. -/
theorem Execute_lines (c : Catalog) (h : WF c) :
    Execute c = unlines ((keyPaths c).map (fun p => specLine p.2 p.1 (formatsAt c p.1 p.2))) ∧
    (keyPaths c).Nodup ∧
    (∀ b a : String, (b, a) ∈ keyPaths c ↔ hasPair c b a = true) ∧
    (∀ b a : String, (formatsAt c b a).Nodup ∧
      ∀ t : FileType, t ∈ formatsAt c b a ↔ has c b a t = true) ∧
    (lfFreeCatalog c →
      stdoutLines (Execute c) =
          (keyPaths c).map (fun p => specLine p.2 p.1 (formatsAt c p.1 p.2)) ∧
        (stdoutLines (Execute c)).length = (keyPaths c).length) ∧
    Execute catalog = "" ∧ stdoutLines (Execute catalog) = [] := by
  refine ⟨Execute_eq_keyPaths c h, nodup_keyPaths c h, mem_keyPaths c h,
    fun b a => ⟨nodup_formatsAt c h b a, mem_formatsAt c b a⟩, fun hl => ?_, rfl, rfl⟩
  have hs := stdoutLines_Execute c hl
  rw [records_eq_keyPaths c h] at hs
  exact ⟨hs, by rw [hs, List.length_map]⟩

/-- C2 amended, at the catalog of the example: two key paths, two lines. -/
theorem Execute_lines_witness :
    WF [("Low", [("Bowie", [("MP3", ()), ("FLAC", ())]), ("Eno", [("MP3", ())])])] ∧
    lfFreeCatalog [("Low", [("Bowie", [("MP3", ()), ("FLAC", ())]), ("Eno", [("MP3", ())])])] ∧
    stdoutLines
        (Execute [("Low", [("Bowie", [("MP3", ()), ("FLAC", ())]), ("Eno", [("MP3", ())])])]) =
      ["\"Bowie\",\"Low\",\"MP3\",\"FLAC\"", "\"Eno\",\"Low\",\"MP3\""] :=
  ⟨by decide, by decide,
    ((Execute_lines [("Low", [("Bowie", [("MP3", ()), ("FLAC", ())]), ("Eno", [("MP3", ())])])]
      (by decide)).2.2.2.2.1 (by decide)).1⟩

/-- C9, as the claim states it, fails: after one visit of a file whose artist tag holds
a line feed, the first line of standard output is a quote and the letter A, which is
not the text of an artist, an album and a format. -/
theorem reachable_line_without_fields :
    "\"A" ∈ stdoutLines (Execute (visitAll State.init
        [⟨"Low/a.flac", some ⟨FileKind.regular⟩, none, .ok 3,
          .ok ⟨"A\nB", "", "Low", "FLAC"⟩⟩]).catalog) ∧
    ¬ ∃ (a b : String) (f : FileType) (fs : List FileType),
      "\"A" = specLine a b (f :: fs) := by
  refine ⟨by decide, ?_⟩
  rintro ⟨a, b, f, fs, h⟩
  have hd := congrArg (fun s : String => s.data.length) h
  have h2 : ("\"A" : String).data.length = 2 := rfl
  simp only [h2, specLine_data, typeFields_cons_data, List.length_cons, List.length_append] at hd
  omega

/-- C9, amended. In the catalog reached from the empty one by `visit` over any sequence
of entries, every album holds an artist and every artist holds a format; so every
record `Execute` writes for it, one per key path and each followed by a line feed, has
the quoted artist, the quoted album and one quoted format at least; and when no album,
artist or format of that catalog holds a line feed, every line of standard output is
such a record. -/
theorem reachable_nonEmpty (es : List Entry) :
    NonEmpty (visitAll State.init es).catalog ∧
    (∀ (b : String) (arts : artists), mapGet (visitAll State.init es).catalog b = some arts →
      arts ≠ [] ∧ ∀ (a : String) (fts : fileTypes), mapGet arts a = some fts → fts ≠ []) ∧
    (Execute (visitAll State.init es).catalog =
        unlines ((keyPaths (visitAll State.init es).catalog).map
          (fun p => specLine p.2 p.1 (formatsAt (visitAll State.init es).catalog p.1 p.2))) ∧
      ∀ p ∈ keyPaths (visitAll State.init es).catalog,
        ∃ (f : FileType) (fs : List FileType),
          formatsAt (visitAll State.init es).catalog p.1 p.2 = f :: fs) ∧
    (lfFreeCatalog (visitAll State.init es).catalog →
      ∀ line ∈ stdoutLines (Execute (visitAll State.init es).catalog),
        ∃ (a b : String) (f : FileType) (fs : List FileType),
          line = specLine a b (f :: fs)) := by
  have hne : NonEmpty (visitAll State.init es).catalog := by
    rw [visitAll_catalog]
    exact NonEmpty_accumulateAll _ _ (by decide)
  have hwf : WF (visitAll State.init es).catalog := by
    rw [visitAll_catalog]
    exact WF_accumulateAll _ _ WF_catalog
  refine ⟨hne, ?_, ⟨Execute_eq_keyPaths _ hwf, ?_⟩, ?_⟩
  · intro b arts hb
    have h1 := hne _ (mem_of_mapGet _ _ _ hb)
    exact ⟨h1.1, fun a fts ha => h1.2 _ (mem_of_mapGet _ _ _ ha)⟩
  · intro p hp
    rcases List.mem_flatMap.1 hp with ⟨e, he, hp⟩
    rcases List.mem_map.1 hp with ⟨x, hx, rfl⟩
    have hx2 : x.2 ≠ [] := (hne e he).2 x hx
    simp only
    rw [formatsAt_of_mem _ hwf e he x hx]
    obtain ⟨a, fts⟩ := x
    cases fts with
    | nil => exact absurd rfl hx2
    | cons f fts => exact ⟨f.1, mapKeys fts, rfl⟩
  · intro hlf line hl
    rw [stdoutLines_Execute _ hlf] at hl
    rcases List.mem_flatMap.1 hl with ⟨e, he, hl⟩
    rcases List.mem_map.1 hl with ⟨x, hx, rfl⟩
    have hx2 : x.2 ≠ [] := (hne e he).2 x hx
    obtain ⟨a, fts⟩ := x
    cases fts with
    | nil => exact absurd rfl hx2
    | cons f fts => exact ⟨a, e.1, f.1, mapKeys fts, rfl⟩

/-- C9 amended, after one valid file was visited: the one line printed has three fields. -/
theorem reachable_nonEmpty_witness :
    lfFreeCatalog (visitAll State.init
        [⟨"Low/a.mp3", some ⟨FileKind.regular⟩, none, .ok 3,
          .ok ⟨"Bowie", "", "Low", "MP3"⟩⟩]).catalog ∧
    "\"Bowie\",\"Low\",\"MP3\"" ∈ stdoutLines (Execute (visitAll State.init
        [⟨"Low/a.mp3", some ⟨FileKind.regular⟩, none, .ok 3,
          .ok ⟨"Bowie", "", "Low", "MP3"⟩⟩]).catalog) ∧
    ∃ (a b : String) (f : FileType) (fs : List FileType),
      "\"Bowie\",\"Low\",\"MP3\"" = specLine a b (f :: fs) :=
  ⟨by decide, by decide, (reachable_nonEmpty
    [⟨"Low/a.mp3", some ⟨FileKind.regular⟩, none, .ok 3,
      .ok ⟨"Bowie", "", "Low", "MP3"⟩⟩]).2.2.2 (by decide) _ (by decide)⟩

/-- C10 (unambiguous lines). When no field holds a double quote, the line `Execute`
prints for an artist, an album and a sequence of formats determines the three: equal
lines come from equal artists, equal albums and equal format sequences. -/
theorem Execute_line_injective (a a' b b' : String) (fs fs' : List FileType)
    (ha : quoteFree a) (ha' : quoteFree a') (hb : quoteFree b) (hb' : quoteFree b')
    (hfs : ∀ f ∈ fs, quoteFree f) (hfs' : ∀ f ∈ fs', quoteFree f)
    (h : Execute (single a b fs) = Execute (single a' b' fs')) :
    a = a' ∧ b = b' ∧ fs = fs' := by
  rw [Execute_single, Execute_single] at h
  have hd := congrArg String.data h
  rw [String.data_append, String.data_append] at hd
  exact specLine_injective a a' b b' fs fs' ha ha' hb hb' hfs hfs'
    (String.ext (List.append_cancel_right hd))

/-- C10 at one line printed twice. -/
theorem Execute_line_injective_witness :
    (quoteFree "Bowie" ∧ quoteFree "Low" ∧ ∀ f ∈ ["MP3", "FLAC"], quoteFree f) ∧
    Execute (single "Bowie" "Low" ["MP3", "FLAC"]) = "\"Bowie\",\"Low\",\"MP3\",\"FLAC\"\n" ∧
    ("Bowie" = "Bowie" ∧ "Low" = "Low" ∧ ["MP3", "FLAC"] = ["MP3", "FLAC"]) :=
  ⟨by decide, by decide,
    Execute_line_injective "Bowie" "Bowie" "Low" "Low" ["MP3", "FLAC"] ["MP3", "FLAC"]
      (by decide) (by decide) (by decide) (by decide) (by decide) (by decide) rfl⟩

end MusicCatalog
